import Mathlib

/-
Verification of the HIRES order-extraction pipeline (extract-orders.py).

The pipeline reads a science image, a wavelength image and a list of DS9 box
regions (one per spectral order).  For each order it: resolves the order name
to a connectivity label and a numeric index, reconciles a geometric wide mask
with the connectivity label mask, removes the horizontal tilt by chunk-wise
circular row shifts, collapses the wavelength map to one mask-weighted mean
per column, and trims the wrapped-around rows from the top of the strip.

2-D rasters are embedded as functions `ℕ → ℕ → α` together with explicit
shape parameters `ny` (rows) and `nx` (columns); cells outside the shape are
junk and all statements are restricted to in-bounds cells.  Real-valued data
is embedded as `ℚ` where the code only moves values around, and as `ℝ` where
the trigonometry of the tilt matters.  numpy's NaN sentinel is embedded as
`Option.none`, and exceptions as `Except.error`.
-/

/- ## Order name resolution (lines 10-19 and 90-91 of extract-orders.py) -/

/-- Mapping between the hand-drawn boxes and the labels of the contiguous
patches (`box2label` in the source). -/
def box2label : List (String × ℤ) :=
  [("51", 24), ("52", 23), ("53", 22), ("54", 21), ("55", 20), ("56", 19),
   ("57", 18), ("58", 17), ("59", 16), ("60", 15), ("61", 14), ("62", 14),
   ("63", 14), ("64", 13), ("65", 12), ("66", 11), ("67", 10), ("68", 9),
   ("69", 8), ("70", 7), ("71", 6), ("72", 5), ("73", 4), ("74", 3),
   ("75", 2), ("76", 1)]

/-- Look a trailing order-name token up in the box-to-label table
(`box2label[...]` on line 90; a missing key raises KeyError, a subclass of
LookupError). -/
def lookupLabel (tok : String) : Option ℤ :=
  box2label.lookup tok

/-- Orders up to 72 are well-separated and work with both methods
(`ordermax` in the source). -/
def ordermax : ℤ := 72

/-- Split a character list at whitespace runs, dropping empty pieces, as
Python `str.split()` with no argument does; the accumulator holds the
current token reversed. -/
def wsTokensAux : List Char → List Char → List (List Char)
  | [], cur => if cur.isEmpty then [] else [cur.reverse]
  | c :: rest, cur =>
    if c.isWhitespace then
      if cur.isEmpty then wsTokensAux rest []
      else cur.reverse :: wsTokensAux rest []
    else wsTokensAux rest (c :: cur)

/-- Python `ordername.split()[-1]`: the trailing whitespace-delimited token
of an order name; `none` when the name has no token at all (IndexError in
Python). -/
def lastToken (name : String) : Option String :=
  ((wsTokensAux name.toList []).map fun cs => String.mk cs).getLast?

/-- Accumulate decimal digits; any non-digit character fails the parse. -/
def parseNatAux : List Char → ℕ → Option ℕ
  | [], acc => some acc
  | c :: rest, acc =>
    if c.isDigit then parseNatAux rest (acc * 10 + (c.toNat - 48)) else none

/-- Python `int(tok)` on a stripped token: an optional sign followed by at
least one decimal digit; anything else raises ValueError, embedded as
`none`. -/
def parseInt (tok : String) : Option ℤ :=
  match tok.toList with
  | [] => none
  | '-' :: rest =>
    if rest.isEmpty then none else (parseNatAux rest 0).map fun n => -(n : ℤ)
  | '+' :: rest =>
    if rest.isEmpty then none else (parseNatAux rest 0).map fun n => (n : ℤ)
  | cs => (parseNatAux cs 0).map fun n => (n : ℤ)

/-- The three fatal errors the per-order name resolution can raise:
KeyError/LookupError from the table lookup (line 90), ValueError from
`int(...)` (line 91), IndexError from `split()[-1]` on an empty name. -/
inductive RunError : Type where
  | lookupErr : RunError
  | parseErr : RunError
  | indexErr : RunError
deriving DecidableEq, Repr

/-- Equality of `Except` results is decidable, so concrete runs can be
checked by evaluation. -/
instance {ε α : Type*} [DecidableEq ε] [DecidableEq α] :
    DecidableEq (Except ε α) := fun
  | .error e, .error f =>
    if h : e = f then .isTrue (congrArg Except.error h)
    else .isFalse fun hc => h (Except.error.inj hc)
  | .error _, .ok _ => .isFalse fun hc => Except.noConfusion hc
  | .ok _, .error _ => .isFalse fun hc => Except.noConfusion hc
  | .ok v, .ok w =>
    if h : v = w then .isTrue (congrArg Except.ok h)
    else .isFalse fun hc => h (Except.ok.inj hc)

/-- Lines 90-91 of the source: `label = box2label[ordername.split()[-1]]`
then `iorder = int(ordername.split()[-1])`.  The table lookup runs first;
either failure aborts (uncaught exception), embedded as `Except.error`. -/
def resolveOrder (name : String) : Except RunError (ℤ × ℤ) :=
  match lastToken name with
  | none => .error .indexErr
  | some tok =>
    match lookupLabel tok with
    | none => .error .lookupErr
    | some lab =>
      match parseInt tok with
      | none => .error .parseErr
      | some i => .ok (lab, i)

/-- The per-order loop of `extract_orders`, restricted to the name
resolution it performs for each region in file order; an uncaught exception
stops the whole run, which `List.mapM` over `Except` models exactly (the
first error is returned and no later order is touched). -/
def processOrders (names : List String) : Except RunError (List (ℤ × ℤ)) :=
  names.mapM resolveOrder

/- ## Region boxes and shrink_box (lines 21-26) -/

/-- A pyregion box region: `coord_list = [xcenter, ycenter, width, height,
angle]` plus the free-text attribute holding the order name. -/
structure Region : Type where
  coord_list : List ℚ
  text : String
deriving DecidableEq, Repr

/-- `shrink_box(r, h=8.0)` from the source: `r.coord_list[3] = h; return r`.
Python mutates the argument and returns the same object, so the embedding
returns the pair (returned region, final state of the argument); both
components are the updated record. -/
def shrink_box (r : Region) (h : ℚ := 8) : Region × Region :=
  let r2 : Region := { r with coord_list := r.coord_list.set 3 h }
  (r2, r2)

/- ## Mask reconciliation (lines 106-111) -/

/-- Lines 106-111 of the source: the authoritative mask is
`widemask & (labels == label)` for orders with `iorder <= ordermax`, and
`labels == label` alone for higher orders. -/
def reconcileMask (iorder : ℤ) (widemask : ℕ → ℕ → Bool)
    (labels : ℕ → ℕ → ℤ) (label : ℤ) : ℕ → ℕ → Bool :=
  if iorder ≤ ordermax then
    fun i j => widemask i j && decide (labels i j = label)
  else
    fun i j => decide (labels i j = label)

/- ## Wavelength validity mask (line 66) -/

/-- Line 66: `wavmask = (wavhdu.data >= wavmin) & (wavhdu.data <= wavmax)`,
both bounds inclusive. -/
def wavmask (wav : ℕ → ℕ → ℚ) (wavmin wavmax : ℚ) : ℕ → ℕ → Bool :=
  fun i j => decide (wavmin ≤ wav i j ∧ wav i j ≤ wavmax)

/- ## Mask dilation (lines 28-35) -/

/-- `dilate_mask(mask, margin)` from the source: skimage grey dilation of a
0/1 mask by a square structuring element of side `2*margin + 1` on an
`ny × nx` image; the border is padded with the minimum value, so a cell is
true iff some in-bounds true cell lies within Chebyshev distance `margin`. -/
def dilate_mask (ny nx : ℕ) (margin : ℕ) (m : ℕ → ℕ → Bool) : ℕ → ℕ → Bool :=
  fun i j =>
    decide (∃ i2, i2 < ny ∧ ∃ j2, j2 < nx ∧
      ((i : ℤ) - i2).natAbs ≤ margin ∧ ((j : ℤ) - j2).natAbs ≤ margin ∧
      m i2 j2 = true)

/- ## Tilt shifts (lines 118-120) -/

/-- Degrees to radians, `np.radians`. -/
noncomputable def radians (d : ℝ) : ℝ := d * Real.pi / 180

/-- numpy `.astype(int)`: truncation toward zero (floor for nonnegative
reals, ceiling for negative ones). -/
noncomputable def truncR (x : ℝ) : ℤ := if 0 ≤ x then ⌊x⌋ else ⌈x⌉

/-- Line 119: `jshifts = (np.arange(nx)*np.tan(np.radians(tilt))).astype(int)`,
the required shift of each column. -/
noncomputable def jshifts (tilt : ℝ) : ℕ → ℤ :=
  fun j => truncR ((j : ℝ) * Real.tan (radians tilt))

/-- Line 120: `jtrim = jshifts.max()`, the amount to trim off the top of the
strip at the end.  numpy's `max` over the (always nonempty) shift table;
the dead branch keeps the definition total. -/
def jtrim (s : ℕ → ℤ) (nx : ℕ) : ℤ :=
  if h : ((Finset.range nx).image s).Nonempty then
    ((Finset.range nx).image s).max' h
  else 0

/- ## Chunk-wise rectification (lines 121-128) -/

/-- `np.roll(A, -v, axis=0)` on an `ny`-row raster: row `i` of the result is
row `(i + v) mod ny` of the input. -/
def npRoll {α : Type*} (ny : ℕ) (v : ℤ) (A : ℕ → ℕ → α) : ℕ → ℕ → α :=
  fun i j => A (((i : ℤ) + v) % (ny : ℤ)).toNat j

/-- `A[chunk] = np.roll(A[chunk], -v, axis=0)` where `chunk` spans all rows
and columns `lo..hi` (inclusive). -/
def rollChunk {α : Type*} (ny : ℕ) (v : ℤ) (lo hi : ℕ) (A : ℕ → ℕ → α) : ℕ → ℕ → α :=
  fun i j => if lo ≤ j ∧ j ≤ hi then npRoll ny v A i j else A i j

/-- The columns of the shift table holding a given shift value. -/
def colsWith (s : ℕ → ℤ) (nx : ℕ) (v : ℤ) : Finset ℕ :=
  (Finset.range nx).filter fun j => s j = v

/-- The labels `1, 2, ..., jshifts.max()` that `scipy.ndimage.find_objects`
scans when handed the broadcast shift table (value 0 is background and
negative values are ignored, exactly as in the loop on line 122). -/
def labelsOf (s : ℕ → ℤ) (nx : ℕ) : List ℤ :=
  (List.range (jtrim s nx).toNat).map fun k : ℕ => (k : ℤ) + 1

/-- One iteration of the loop on lines 122-128 for shift value `v`: if some
column holds `v`, roll the bounding column range of those columns; if no
column holds `v`, `find_objects` yields `None` for that label and the
indexing/roll on lines 123-128 raises, embedded as `none`. -/
def chunkStep {α : Type*} (ny nx : ℕ) (s : ℕ → ℤ) (A : ℕ → ℕ → α) (v : ℤ) :
    Option (ℕ → ℕ → α) :=
  if h : (colsWith s nx v).Nonempty then
    some (rollChunk ny v ((colsWith s nx v).min' h) ((colsWith s nx v).max' h) A)
  else none

/-- The pure shape of `chunkStep` (identity on the labels whose column set
is empty); used to reason about successful runs. -/
def chunkStepP {α : Type*} (ny nx : ℕ) (s : ℕ → ℤ) (A : ℕ → ℕ → α) (v : ℤ) :
    ℕ → ℕ → α :=
  if h : (colsWith s nx v).Nonempty then
    rollChunk ny v ((colsWith s nx v).min' h) ((colsWith s nx v).max' h) A
  else A

/-- Lines 121-128: process the raster in chunks of constant shift, rolling
each chunk up by its shift value.  Fails (`none`) exactly when some label in
`1..jshifts.max()` has no column, which makes `find_objects` return `None`
for it and the subsequent indexing raise. -/
def chunkRectify {α : Type*} (ny nx : ℕ) (s : ℕ → ℤ) (A : ℕ → ℕ → α) :
    Option (ℕ → ℕ → α) :=
  (labelsOf s nx).foldlM (chunkStep ny nx s) A

/- ## Column means (lines 130-132) and final trim (lines 133-135) -/

/-- Lines 130-131: `meanwav = np.sum(wavorder*m, axis=0) / m.sum(axis=0)`
for one column `j`; a column with no mask-true pixel divides by zero and
produces numpy's NaN sentinel, embedded as `none`. -/
def meanwavCol (ny : ℕ) (wav : ℕ → ℕ → ℚ) (m : ℕ → ℕ → Bool) (j : ℕ) :
    Option ℚ :=
  let den : ℚ := ∑ i in Finset.range ny, (if m i j then (1 : ℚ) else 0)
  if den = 0 then none
  else some ((∑ i in Finset.range ny, wav i j * (if m i j then (1 : ℚ) else 0)) / den)

/-- Line 132: `meanwav = np.vstack([meanwav]*ny)` — the per-column mean
broadcast back to every row. -/
def meanwav (ny : ℕ) (wav : ℕ → ℕ → ℚ) (m : ℕ → ℕ → Bool) :
    ℕ → ℕ → Option ℚ :=
  fun _ j => meanwavCol ny wav m j

/-- Python slice semantics `a[:e]` for a length-`n` sequence: a negative
stop counts from the end and the result is clamped to `[0, n]`; the value is
the number of elements kept.  Lines 134-135 slice with `e = -jtrim`. -/
def pySliceUpto (n : ℕ) (e : ℤ) : ℕ :=
  (if e < 0 then max 0 (min (n : ℤ) ((n : ℤ) + e)) else min (n : ℤ) e).toNat

/- ## Concrete rasters used by witnesses -/

/-- A concrete 10 × 5 raster with pairwise distinct entries. -/
def rasterA : ℕ → ℕ → ℤ := fun i j => (i : ℤ) * 5 + (j : ℤ)

/-- The shift table [0, 0, 1, 1, 2] of the circular-shift test scenario. -/
def sTab : ℕ → ℤ := fun j => if j < 2 then 0 else if j < 4 then 1 else 2

/- ## Concrete regions used by witnesses -/

/-- A concrete region box of height 20 named Order 60. -/
def regionEx : Region := ⟨[1, 2, 3, 20, 5], "Order 60"⟩

/- ## Claims about name resolution and reconciliation -/

/-- C4: for every order, if the parsed numeric index is at most the cutoff
constant 72 the authoritative mask is the pointwise conjunction of the wide
mask with the label-equality mask; above 72 it is the label-equality mask
alone; at 72 the intersection branch is taken and at 73 the label-only
branch is taken (witnessed by a wide mask that disagrees with the label
mask, on which the two branches diverge). -/
theorem reconcile_mask_cutoff :
    (∀ (io : ℤ) (w : ℕ → ℕ → Bool) (l : ℕ → ℕ → ℤ) (lb : ℤ) (i j : ℕ),
        io ≤ ordermax →
        reconcileMask io w l lb i j = (w i j && decide (l i j = lb)))
    ∧ (∀ (io : ℤ) (w : ℕ → ℕ → Bool) (l : ℕ → ℕ → ℤ) (lb : ℤ) (i j : ℕ),
        ordermax < io →
        reconcileMask io w l lb i j = decide (l i j = lb))
    ∧ reconcileMask 72 (fun _ _ => false) (fun _ _ => 5) 5 0 0 = false
    ∧ reconcileMask 73 (fun _ _ => false) (fun _ _ => 5) 5 0 0 = true := by
  refine ⟨?_, ?_, by decide, by decide⟩
  · intro io w l lb i j h
    unfold reconcileMask
    rw [if_pos h]
  · intro io w l lb i j h
    unfold reconcileMask
    rw [if_neg (not_le.mpr h)]

/-- C4 witness: the intersection branch evaluated at order index 60. -/
theorem reconcile_mask_cutoff_witness :
    reconcileMask 60 (fun _ _ => true) (fun _ _ => 3) 3 1 2 =
      ((fun _ _ => true : ℕ → ℕ → Bool) 1 2 &&
        decide ((fun _ _ => 3 : ℕ → ℕ → ℤ) 1 2 = 3)) :=
  reconcile_mask_cutoff.1 60 _ _ 3 1 2 (by decide)

/-- A successful association-list lookup means the key is listed. -/
lemma lookup_mem_keys :
    ∀ (l : List (String × ℤ)) (tok : String) (lab : ℤ),
      l.lookup tok = some lab → tok ∈ l.map Prod.fst := by
  intro l
  induction l with
  | nil => intro tok lab h; exact absurd h (by simp)
  | cons kv rest ih =>
    intro tok lab h
    obtain ⟨k, v⟩ := kv
    simp only [List.lookup] at h
    cases hbe : tok == k with
    | true =>
      rw [List.map_cons, eq_of_beq hbe]
      exact List.mem_cons_self _ _
    | false =>
      rw [hbe] at h
      exact List.mem_cons_of_mem _ (ih tok lab h)

/-- Every key of the box-to-label table is a numeric string, so any token
that survives the lookup on line 90 also parses on line 91. -/
lemma lookupLabel_parseable (tok : String) (lab : ℤ)
    (h : lookupLabel tok = some lab) : (parseInt tok).isSome = true := by
  have hmem := lookup_mem_keys box2label tok lab h
  obtain ⟨kv, hkv, rfl⟩ := List.mem_map.mp hmem
  exact (show ∀ kv ∈ box2label, (parseInt kv.1).isSome = true by decide) kv hkv

/-- C9 counterexample: the trailing token of the order name Order 5x is not
an integer, yet the run aborts with the LookupError from the table lookup on
line 90, not with the ParseError the claim promises — `int()` on line 91 is
never reached. -/
theorem order_nonint_token_lookup_error :
    lastToken "Order 5x" = some "5x" ∧ parseInt "5x" = none ∧
      resolveOrder "Order 5x" = .error .lookupErr ∧
      resolveOrder "Order 5x" ≠ .error .parseErr := by decide

/-- C9 amended: an order name whose trailing token is missing from the
lookup table aborts the run with the LookupError; a trailing token that is
not an integer is in particular missing from the table (every key is a
numeric string), so it aborts with the same LookupError at line 90 before
the `int()` parse on line 91 can raise — a ParseError is unreachable.
Either failure is fatal: the orders before the bad one do not help, the
orders after it are never processed, and no order is skipped. -/
theorem order_resolution_fatal_amended :
    (∀ name tok, lastToken name = some tok → lookupLabel tok = none →
        resolveOrder name = .error .lookupErr)
    ∧ (∀ name tok, lastToken name = some tok → parseInt tok = none →
        resolveOrder name = .error .lookupErr)
    ∧ (∀ name, resolveOrder name ≠ .error .parseErr)
    ∧ (∀ (pre : List String) (bad : String) (post : List String) (e : RunError),
        resolveOrder bad = .error e →
        (∀ x ∈ pre, ∃ v, resolveOrder x = .ok v) →
        processOrders (pre ++ bad :: post) = .error e) := by
  refine ⟨?_, ?_, ?_, ?_⟩
  · intro name tok h1 h2
    simp [resolveOrder, h1, h2]
  · intro name tok h1 h2
    cases hl : lookupLabel tok with
    | none => simp [resolveOrder, h1, hl]
    | some lab =>
      have hps := lookupLabel_parseable tok lab hl
      rw [h2] at hps
      exact absurd hps (by decide)
  · intro name hcon
    cases hlt : lastToken name with
    | none => simp [resolveOrder, hlt] at hcon
    | some tok =>
      cases hl : lookupLabel tok with
      | none => simp [resolveOrder, hlt, hl] at hcon
      | some lab =>
        cases hp : parseInt tok with
        | none =>
          have hps := lookupLabel_parseable tok lab hl
          rw [hp] at hps
          exact absurd hps (by decide)
        | some n => simp [resolveOrder, hlt, hl, hp] at hcon
  · intro pre bad post e hbad hok
    induction pre with
    | nil =>
      show List.mapM resolveOrder (bad :: post) = Except.error e
      rw [List.mapM_cons, hbad]
      rfl
    | cons x xs ih =>
      obtain ⟨v, hv⟩ := hok x (List.mem_cons_self x xs)
      have hrest := ih fun y hy => hok y (List.mem_cons_of_mem _ hy)
      show List.mapM resolveOrder (x :: (xs ++ bad :: post)) = Except.error e
      rw [List.mapM_cons, hv]
      show ((xs ++ bad :: post).mapM resolveOrder >>= fun bs => pure (v :: bs)) =
        Except.error e
      rw [show (xs ++ bad :: post).mapM resolveOrder = Except.error e from hrest]
      rfl

/-- C9 amended witness: a non-integer token aborts with the lookup error,
and a run over Order 51, the unknown Order 99 and Order 60 aborts with the
lookup error even though Order 51 resolves and Order 60 would have
resolved. -/
theorem order_resolution_fatal_amended_witness :
    resolveOrder "Order 5x" = .error .lookupErr ∧
      processOrders ["Order 51", "Order 99", "Order 60"] = .error .lookupErr :=
  ⟨order_resolution_fatal_amended.2.1 "Order 5x" "5x" (by decide) (by decide),
   order_resolution_fatal_amended.2.2.2 ["Order 51"] "Order 99" ["Order 60"]
     .lookupErr (by decide)
     (by
       intro x hx
       simp only [List.mem_singleton] at hx
       subst hx
       exact ⟨(24, 51), by decide⟩)⟩

/- ## Claims about the column mean -/

/-- C5: the mean wavelength of a column with at least one mask-true pixel is
the mask-weighted sum divided by the mask count, broadcast identically to
every row; a column with no mask-true pixel divides by zero and yields the
NaN sentinel (embedded as `none`) instead of raising; on the concrete mask
[1,0,1] over wavelengths [100,999,300] the mean is 200. -/
theorem meanwav_column_mean :
    (∀ (ny : ℕ) (wav : ℕ → ℕ → ℚ) (m : ℕ → ℕ → Bool) (j : ℕ),
        (∃ i, i < ny ∧ m i j = true) →
        meanwavCol ny wav m j =
          some ((∑ i in Finset.range ny, wav i j * (if m i j then (1 : ℚ) else 0)) /
                (∑ i in Finset.range ny, (if m i j then (1 : ℚ) else 0))))
    ∧ (∀ (ny : ℕ) (wav : ℕ → ℕ → ℚ) (m : ℕ → ℕ → Bool) (j : ℕ),
        (∀ i, i < ny → m i j = false) → meanwavCol ny wav m j = none)
    ∧ (∀ (ny : ℕ) (wav : ℕ → ℕ → ℚ) (m : ℕ → ℕ → Bool) (i i2 j : ℕ),
        meanwav ny wav m i j = meanwav ny wav m i2 j)
    ∧ meanwavCol 3 (fun i _ => ([100, 999, 300].getD i 0 : ℚ))
        (fun i _ => decide (i ≠ 1)) 0 = some 200
    ∧ meanwavCol 3 (fun i _ => ([100, 999, 300].getD i 0 : ℚ))
        (fun _ _ => false) 0 = none := by
  refine ⟨?_, ?_, fun _ _ _ _ _ _ => rfl, ?_, ?_⟩
  · intro ny wav m j ⟨i, hi, hm⟩
    have hpos : (0 : ℚ) < ∑ i2 in Finset.range ny, (if m i2 j then (1 : ℚ) else 0) := by
      refine Finset.sum_pos' (fun k _ => by positivity) ⟨i, Finset.mem_range.mpr hi, ?_⟩
      simp [hm]
    simp only [meanwavCol]
    rw [if_neg (ne_of_gt hpos)]
  · intro ny wav m j hall
    have hz : (∑ i2 in Finset.range ny, (if m i2 j then (1 : ℚ) else 0)) = 0 :=
      Finset.sum_eq_zero fun k hk => by
        rw [hall k (Finset.mem_range.mp hk)]; simp
    simp only [meanwavCol]
    rw [if_pos hz]
  · norm_num [meanwavCol, Finset.sum_range_succ]
  · norm_num [meanwavCol, Finset.sum_range_succ]

/-- C5 witness: a one-row all-false column produces the NaN sentinel. -/
theorem meanwav_column_mean_witness :
    meanwavCol 1 (fun _ _ => (7 : ℚ)) (fun _ _ => false) 0 = none :=
  meanwav_column_mean.2.1 1 (fun _ _ => (7 : ℚ)) (fun _ _ => false) 0
    (fun _ _ => rfl)

/- ## Claims about shrink_box -/

/-- C8 counterexample: `shrink_box` does not leave the passed region
unmodified — the argument's final state differs from the original region
(its height is overwritten), and the returned region is that same mutated
object. -/
theorem shrink_box_mutates_argument :
    (shrink_box regionEx).2 ≠ regionEx ∧
      (shrink_box regionEx).2 = (shrink_box regionEx).1 :=
  ⟨by decide, rfl⟩

/-- C8 amended: `shrink_box(region, coreHeight=8.0)` returns the region with
its height entry (`coord_list[3]`) set to the core height and every other
field unchanged, but it mutates the region passed in: the returned object is
the argument itself after the height is overwritten, not a copy. -/
theorem shrink_box_amended :
    ∀ (r : Region) (h : ℚ),
      (3 < r.coord_list.length → (shrink_box r h).1.coord_list[3]? = some h)
      ∧ (∀ k, k ≠ 3 → (shrink_box r h).1.coord_list[k]? = r.coord_list[k]?)
      ∧ (shrink_box r h).1.text = r.text
      ∧ (shrink_box r h).2 = (shrink_box r h).1 := by
  intro r h
  refine ⟨fun hr => ?_, fun k hk => ?_, rfl, rfl⟩
  · simp only [shrink_box]
    exact List.getElem?_set_eq_of_lt h hr
  · simp only [shrink_box]
    exact List.getElem?_set_ne (by omega)

/-- C8 amended witness: shrinking the concrete Order 60 box sets its height
to 8 and keeps its x center. -/
theorem shrink_box_amended_witness :
    (shrink_box regionEx 8).1.coord_list[3]? = some 8 ∧
      (shrink_box regionEx 8).1.coord_list[0]? = regionEx.coord_list[0]? :=
  ⟨(shrink_box_amended regionEx 8).1 (by decide),
   (shrink_box_amended regionEx 8).2.1 0 (by decide)⟩

/- ## Claims about dilation -/

/-- One Chebyshev step from `a` toward `b`, staying between them. -/
def stepToward (a b : ℕ) : ℕ := if a ≤ b then min (a + 1) b else a - 1

/-- C6: dilating a boolean mask twice with margin 1 equals dilating it once
with margin 2, at every in-bounds cell of the raster (dilation grows true
regions in all 8 directions with a square structuring element of side
`2*margin + 1`, clipped at the image border). -/
theorem dilate_twice_eq_dilate_two :
    ∀ (ny nx : ℕ) (m : ℕ → ℕ → Bool) (i j : ℕ), i < ny → j < nx →
      dilate_mask ny nx 1 (dilate_mask ny nx 1 m) i j = dilate_mask ny nx 2 m i j := by
  intro ny nx m i j hi hj
  simp only [dilate_mask, decide_eq_decide, decide_eq_true_eq]
  constructor
  · rintro ⟨i1, hi1, j1, hj1, d1, e1, hq⟩
    obtain ⟨i2, hi2, j2, hj2, d2, e2, hm⟩ := hq
    exact ⟨i2, hi2, j2, hj2, by omega, by omega, hm⟩
  · rintro ⟨i2, hi2, j2, hj2, d2, e2, hm⟩
    refine ⟨stepToward i i2, ?_, stepToward j j2, ?_, ?_, ?_,
            ⟨i2, hi2, j2, hj2, ?_, ?_, hm⟩⟩
    · unfold stepToward; split_ifs <;> omega
    · unfold stepToward; split_ifs <;> omega
    · unfold stepToward; split_ifs <;> omega
    · unfold stepToward; split_ifs <;> omega
    · unfold stepToward; split_ifs <;> omega
    · unfold stepToward; split_ifs <;> omega

/-- C6 witness: the composition law evaluated on a concrete 4 × 4 mask with
one true cell, at the far corner (reachable by margin 2 but not margin 1). -/
theorem dilate_twice_eq_dilate_two_witness :
    dilate_mask 4 4 1 (dilate_mask 4 4 1 (fun i j => decide (i = 1 ∧ j = 1))) 3 3 =
      dilate_mask 4 4 2 (fun i j => decide (i = 1 ∧ j = 1)) 3 3 :=
  dilate_twice_eq_dilate_two 4 4 _ 3 3 (by decide) (by decide)

/- ## Claims about chunk-wise rectification -/

/-- A successful `foldlM` over `Option` computes the pure fold of the step
functions that fired. -/
lemma foldlM_chunkStep_eq_foldl {α : Type*} (ny nx : ℕ) (s : ℕ → ℤ) :
    ∀ (L : List ℤ) (B R : ℕ → ℕ → α),
      L.foldlM (chunkStep ny nx s) B = some R →
      R = L.foldl (chunkStepP ny nx s) B := by
  intro L
  induction L with
  | nil =>
    intro B R h
    exact (Option.some.inj h).symm
  | cons v L ih =>
    intro B R h
    rw [List.foldlM_cons] at h
    cases hs : chunkStep ny nx s B v with
    | none => rw [hs] at h; exact absurd h (by simp)
    | some B2 =>
      rw [hs] at h
      have hB2 : chunkStepP ny nx s B v = B2 := by
        unfold chunkStep at hs; unfold chunkStepP
        by_cases hne : (colsWith s nx v).Nonempty
        · rw [dif_pos hne] at hs ⊢
          exact Option.some.inj hs
        · rw [dif_neg hne] at hs
          exact absurd hs (by simp)
      rw [List.foldl_cons, hB2]
      exact ih B2 R h

/-- Membership in a shift-value column set. -/
lemma mem_colsWith {s : ℕ → ℤ} {nx : ℕ} {v : ℤ} {j : ℕ} :
    j ∈ colsWith s nx v ↔ j < nx ∧ s j = v := by
  unfold colsWith
  rw [Finset.mem_filter, Finset.mem_range]

/-- For a monotone shift table, the chunk of value `v` touches an in-bounds
column `j` exactly when `s j = v`, so one chunk pass rolls precisely its own
columns. -/
lemma chunkStepP_apply {α : Type*} (ny nx : ℕ) (s : ℕ → ℤ)
    (hmono : ∀ k, k < nx → ∀ j, j ≤ k → s j ≤ s k)
    (B : ℕ → ℕ → α) (v : ℤ) (i j : ℕ) (hj : j < nx) :
    chunkStepP ny nx s B v i j = if s j = v then npRoll ny v B i j else B i j := by
  unfold chunkStepP
  by_cases hne : (colsWith s nx v).Nonempty
  · rw [dif_pos hne]
    unfold rollChunk
    have hmin := mem_colsWith.mp ((colsWith s nx v).min'_mem hne)
    have hmax := mem_colsWith.mp ((colsWith s nx v).max'_mem hne)
    by_cases hv : s j = v
    · have hjmem : j ∈ colsWith s nx v := mem_colsWith.mpr ⟨hj, hv⟩
      rw [if_pos ⟨Finset.min'_le _ _ hjmem, Finset.le_max' _ _ hjmem⟩, if_pos hv]
    · rw [if_neg hv, if_neg]
      rintro ⟨h1, h2⟩
      have hle1 : s ((colsWith s nx v).min' hne) ≤ s j := hmono j hj _ h1
      have hle2 : s j ≤ s ((colsWith s nx v).max' hne) := hmono _ hmax.1 j h2
      rw [hmin.2] at hle1
      rw [hmax.2] at hle2
      exact hv (le_antisymm hle2 hle1)
  · rw [dif_neg hne, if_neg]
    intro hv
    exact hne ⟨j, mem_colsWith.mpr ⟨hj, hv⟩⟩

/-- Folding the chunk passes over a duplicate-free label list rolls each
in-bounds column by its own shift if that shift is listed, else leaves it. -/
lemma foldl_chunkStepP_apply {α : Type*} (ny nx : ℕ) (s : ℕ → ℤ)
    (hmono : ∀ k, k < nx → ∀ j, j ≤ k → s j ≤ s k) (j : ℕ) (hj : j < nx) :
    ∀ (L : List ℤ), L.Nodup → ∀ (B : ℕ → ℕ → α) (i : ℕ),
      (L.foldl (chunkStepP ny nx s) B) i j =
        if s j ∈ L then npRoll ny (s j) B i j else B i j := by
  intro L
  induction L with
  | nil => intro _ B i; simp
  | cons v L ih =>
    intro hnd B i
    have hvL : v ∉ L := (List.nodup_cons.mp hnd).1
    have hnd2 : L.Nodup := (List.nodup_cons.mp hnd).2
    rw [List.foldl_cons, ih hnd2 (chunkStepP ny nx s B v) i]
    by_cases hv : s j = v
    · have hnin : s j ∉ L := by rw [hv]; exact hvL
      rw [if_neg hnin, if_pos (by rw [hv]; exact List.mem_cons_self v L)]
      rw [chunkStepP_apply ny nx s hmono B v i j hj, if_pos hv, hv]
    · by_cases hin : s j ∈ L
      · rw [if_pos hin, if_pos (List.mem_cons_of_mem v hin)]
        show chunkStepP ny nx s B v (((i : ℤ) + s j) % (ny : ℤ)).toNat j =
          npRoll ny (s j) B i j
        rw [chunkStepP_apply ny nx s hmono B v _ j hj, if_neg hv]
        rfl
      · have hnin : s j ∉ v :: L := by
          rw [List.mem_cons]; rintro (h | h) <;> [exact hv h; exact hin h]
        rw [if_neg hin, if_neg hnin]
        rw [chunkStepP_apply ny nx s hmono B v i j hj, if_neg hv]

/-- The label list runs over exactly the integers `1..jshifts.max()`. -/
lemma mem_labelsOf (s : ℕ → ℤ) (nx : ℕ) (v : ℤ) :
    v ∈ labelsOf s nx ↔ 1 ≤ v ∧ v ≤ jtrim s nx := by
  unfold labelsOf
  simp only [List.mem_map, List.mem_range]
  constructor
  · rintro ⟨k, hk, rfl⟩
    constructor <;> omega
  · rintro ⟨h1, h2⟩
    exact ⟨(v - 1).toNat, by omega, by omega⟩

/-- The label list has no duplicates. -/
lemma labelsOf_nodup (s : ℕ → ℤ) (nx : ℕ) : (labelsOf s nx).Nodup := by
  unfold labelsOf
  exact List.Nodup.map (fun a b hab => by omega) (List.nodup_range _)

/-- Every in-bounds column shift is bounded by `jtrim`, the table maximum. -/
lemma le_jtrim (s : ℕ → ℤ) (nx : ℕ) (j : ℕ) (hj : j < nx) :
    s j ≤ jtrim s nx := by
  unfold jtrim
  have hmem : s j ∈ (Finset.range nx).image s :=
    Finset.mem_image_of_mem s (Finset.mem_range.mpr hj)
  rw [dif_pos ⟨s j, hmem⟩]
  exact Finset.le_max' _ _ hmem

/-- C2: when the chunk-wise rectification of lines 121-128 completes (no
missing chunk label), every in-bounds cell `(i, j)` of the result holds the
value that sat at row `(i + s j) mod ny`, column `j`, before rectification —
for any raster, hence for all four arrays that the loop rolls.  The shift
table produced on line 119 from a tilt in `[0°, 45°]` is nonnegative and
monotone as the hypotheses require. -/
theorem chunk_rectify_observable_shift {α : Type*} (ny nx : ℕ) (s : ℕ → ℤ)
    (A R : ℕ → ℕ → α)
    (hmono : ∀ k, k < nx → ∀ j, j ≤ k → s j ≤ s k)
    (hnn : ∀ j, j < nx → 0 ≤ s j)
    (hR : chunkRectify ny nx s A = some R) :
    ∀ i, i < ny → ∀ j, j < nx →
      R i j = A (((i : ℤ) + s j) % (ny : ℤ)).toNat j := by
  intro i hi j hj
  have hfold := foldlM_chunkStep_eq_foldl ny nx s (labelsOf s nx) A R hR
  rw [hfold, foldl_chunkStepP_apply ny nx s hmono j hj _ (labelsOf_nodup s nx) A i]
  by_cases hin : s j ∈ labelsOf s nx
  · rw [if_pos hin]
    rfl
  · rw [if_neg hin]
    have hle := le_jtrim s nx j hj
    have hge := hnn j hj
    rw [mem_labelsOf] at hin
    have h0 : s j = 0 := by omega
    have hmod : ((i : ℤ) + 0) % (ny : ℤ) = (i : ℤ) := by
      rw [add_zero]
      exact Int.emod_eq_of_lt (by positivity) (by exact_mod_cast hi)
    rw [h0, hmod, Int.toNat_natCast]

/-- C2 witness: on a 10 × 5 raster with the shift table [0,0,1,1,2] the
rectification succeeds, its row 0 column 4 holds the original row 2 column 4
(wrap of `(0+2) mod 10`), and `jtrim = 2`. -/
theorem chunk_rectify_observable_shift_witness :
    (chunkRectify 10 5 sTab rasterA).isSome = true ∧
      (chunkRectify 10 5 sTab rasterA).getD rasterA 0 4 = rasterA 2 4 ∧
      jtrim sTab 5 = 2 := by
  have hs : (chunkRectify 10 5 sTab rasterA).isSome = true := by decide
  refine ⟨hs, ?_, by decide⟩
  have hR : chunkRectify 10 5 sTab rasterA =
      some ((chunkRectify 10 5 sTab rasterA).getD rasterA) := by
    cases h : chunkRectify 10 5 sTab rasterA with
    | none => rw [h] at hs; exact absurd hs (by simp)
    | some R => rfl
  have hpt := chunk_rectify_observable_shift 10 5 sTab rasterA
    ((chunkRectify 10 5 sTab rasterA).getD rasterA)
    (by decide) (by decide) hR 0 (by decide) 4 (by decide)
  rw [hpt]
  rfl

/- ## Connectivity labeling (lines 66-67) -/

/-- A cell lies on the raster. -/
def inBounds (ny nx : ℕ) (p : ℕ × ℕ) : Prop := p.1 < ny ∧ p.2 < nx

/-- 8-connectivity adjacency on the true cells of a mask, the structuring
element `np.ones((3,3))` of line 67: two distinct in-bounds true cells
within Chebyshev distance 1. -/
def adj8 (ny nx : ℕ) (m : ℕ → ℕ → Bool) (p q : ℕ × ℕ) : Prop :=
  inBounds ny nx p ∧ inBounds ny nx q ∧ m p.1 p.2 = true ∧ m q.1 q.2 = true ∧
    p ≠ q ∧ ((p.1 : ℤ) - q.1).natAbs ≤ 1 ∧ ((p.2 : ℤ) - q.2).natAbs ≤ 1

/-- Connectivity: the reflexive-transitive closure of 8-adjacency. -/
def connected8 (ny nx : ℕ) (m : ℕ → ℕ → Bool) : ℕ × ℕ → ℕ × ℕ → Prop :=
  Relation.ReflTransGen (adj8 ny nx m)

/-- Contract of `ndi.label(mask, structure=np.ones((3,3)))` on line 67 (the
library collaborator): background cells are labeled 0, true cells carry
labels `1..n`, every label in `1..n` is used, and two true cells share a
label exactly when they are 8-connected. -/
def IsCCLabel (ny nx : ℕ) (m : ℕ → ℕ → Bool) (lab : ℕ → ℕ → ℕ) (n : ℕ) : Prop :=
  (∀ p : ℕ × ℕ, inBounds ny nx p → (lab p.1 p.2 ≠ 0 ↔ m p.1 p.2 = true)) ∧
  (∀ p : ℕ × ℕ, inBounds ny nx p → m p.1 p.2 = true →
      1 ≤ lab p.1 p.2 ∧ lab p.1 p.2 ≤ n) ∧
  (∀ k, 1 ≤ k → k ≤ n →
      ∃ p : ℕ × ℕ, inBounds ny nx p ∧ m p.1 p.2 = true ∧ lab p.1 p.2 = k) ∧
  (∀ p q : ℕ × ℕ, inBounds ny nx p → inBounds ny nx q →
      m p.1 p.2 = true → m q.1 q.2 = true →
      (lab p.1 p.2 = lab q.1 q.2 ↔ connected8 ny nx m p q))

/-- The all-true mask. -/
def fullMask : ℕ → ℕ → Bool := fun _ _ => true

/-- Two disjoint 3 × 3 true blocks at opposite corners of a 20 × 20 field. -/
def twoBlocksMask : ℕ → ℕ → Bool := fun i j =>
  decide ((i < 3 ∧ j < 3) ∨ (17 ≤ i ∧ i < 20 ∧ 17 ≤ j ∧ j < 20))

/-- 8-adjacency is symmetric. -/
lemma adj8_symm (ny nx : ℕ) (m : ℕ → ℕ → Bool) : Symmetric (adj8 ny nx m) := by
  rintro p q ⟨hp, hq, hmp, hmq, hne, h1, h2⟩
  exact ⟨hq, hp, hmq, hmp, Ne.symm hne, by omega, by omega⟩

/-- Connectivity is symmetric. -/
lemma connected8_symm {ny nx : ℕ} {m : ℕ → ℕ → Bool} {p q : ℕ × ℕ}
    (h : connected8 ny nx m p q) : connected8 ny nx m q p :=
  Relation.ReflTransGen.symmetric (adj8_symm ny nx m) h

/-- Inside a rectangle of true cells, every cell is connected to the
rectangle's corner: walk one Chebyshev step at a time. -/
lemma conn_to_corner (ny nx : ℕ) (m : ℕ → ℕ → Bool) (a b c d : ℕ)
    (hb : b ≤ ny) (hd : d ≤ nx)
    (hm : ∀ i j, a ≤ i → i < b → c ≤ j → j < d → m i j = true) :
    ∀ (f i j : ℕ), i - a + (j - c) ≤ f → a ≤ i → i < b → c ≤ j → j < d →
      connected8 ny nx m (i, j) (a, c) := by
  intro f
  induction f with
  | zero =>
    intro i j hf h1 h2 h3 h4
    have hac : i = a ∧ j = c := by omega
    rw [hac.1, hac.2]
    exact Relation.ReflTransGen.refl
  | succ f ih =>
    intro i j hf h1 h2 h3 h4
    by_cases hia : a < i
    · have hstep : adj8 ny nx m (i, j) (i - 1, j) := by
        refine ⟨⟨by omega, by omega⟩, ⟨by omega, by omega⟩, hm i j h1 h2 h3 h4,
                hm (i - 1) j (by omega) (by omega) h3 h4, ?_, by omega, by omega⟩
        intro hc
        have := congrArg Prod.fst hc
        simp only at this
        omega
      exact Relation.ReflTransGen.head hstep
        (ih (i - 1) j (by omega) (by omega) (by omega) h3 h4)
    · by_cases hjc : c < j
      · have hstep : adj8 ny nx m (i, j) (i, j - 1) := by
          refine ⟨⟨by omega, by omega⟩, ⟨by omega, by omega⟩, hm i j h1 h2 h3 h4,
                  hm i (j - 1) h1 h2 (by omega) (by omega), ?_, by omega, by omega⟩
          intro hc
          have := congrArg Prod.snd hc
          simp only at this
          omega
        exact Relation.ReflTransGen.head hstep
          (ih i (j - 1) (by omega) h1 h2 (by omega) (by omega))
      · have hac : i = a ∧ j = c := by omega
        rw [hac.1, hac.2]
        exact Relation.ReflTransGen.refl

/-- Any two cells of a rectangle of true cells are connected. -/
lemma conn_in_rect (ny nx : ℕ) (m : ℕ → ℕ → Bool) (a b c d : ℕ)
    (hb : b ≤ ny) (hd : d ≤ nx)
    (hm : ∀ i j, a ≤ i → i < b → c ≤ j → j < d → m i j = true)
    (p q : ℕ × ℕ)
    (hp : a ≤ p.1 ∧ p.1 < b ∧ c ≤ p.2 ∧ p.2 < d)
    (hq : a ≤ q.1 ∧ q.1 < b ∧ c ≤ q.2 ∧ q.2 < d) :
    connected8 ny nx m p q := by
  have h1 : connected8 ny nx m (p.1, p.2) (a, c) :=
    conn_to_corner ny nx m a b c d hb hd hm (p.1 - a + (p.2 - c)) p.1 p.2
      le_rfl hp.1 hp.2.1 hp.2.2.1 hp.2.2.2
  have h2 : connected8 ny nx m (q.1, q.2) (a, c) :=
    conn_to_corner ny nx m a b c d hb hd hm (q.1 - a + (q.2 - c)) q.1 q.2
      le_rfl hq.1 hq.2.1 hq.2.2.1 hq.2.2.2
  exact Relation.ReflTransGen.trans h1 (connected8_symm h2)

/-- A connected path in the two-blocks mask never changes block. -/
lemma twoBlocks_stay (p q : ℕ × ℕ)
    (h : connected8 20 20 twoBlocksMask p q) :
    ((p.1 < 3 ∧ p.2 < 3) ↔ (q.1 < 3 ∧ q.2 < 3)) := by
  induction h with
  | refl => exact Iff.rfl
  | tail hpb hbc ih =>
    refine ih.trans ?_
    obtain ⟨hbI, hcI, hmb, hmc, hne, d1, d2⟩ := hbc
    have hb := (decide_eq_true_eq).mp hmb
    have hc := (decide_eq_true_eq).mp hmc
    rcases hb with hbA | hbB <;> rcases hc with hcA | hcB
    · exact iff_of_true hbA hcA
    · exfalso; omega
    · exfalso; omega
    · exact iff_of_false (by omega) (by omega)

/-- C7: the wavelength validity mask is true at exactly the cells whose
value lies in `[wavMin, wavMax]` (both bounds inclusive), and for the
connected-component labeling of line 67 under 8-connectivity, an all-true
10 × 10 block yields exactly 1 label and two disjoint 3 × 3 blocks at
opposite corners of a 20 × 20 field yield exactly 2 labels. -/
theorem wavmask_and_label_counts :
    (∀ (wav : ℕ → ℕ → ℚ) (lo hi : ℚ) (i j : ℕ),
        wavmask wav lo hi i j = true ↔ lo ≤ wav i j ∧ wav i j ≤ hi)
    ∧ (∀ (lab : ℕ → ℕ → ℕ) (n : ℕ), IsCCLabel 10 10 fullMask lab n → n = 1)
    ∧ (∀ (lab : ℕ → ℕ → ℕ) (n : ℕ), IsCCLabel 20 20 twoBlocksMask lab n → n = 2) := by
  refine ⟨fun wav lo hi i j => by simp [wavmask], ?_, ?_⟩
  · rintro lab n ⟨h1, h2, h3, h4⟩
    have h00 : inBounds 10 10 (0, 0) := ⟨by omega, by omega⟩
    have hb := h2 (0, 0) h00 rfl
    by_contra hne
    have h2n : 2 ≤ n := by omega
    obtain ⟨p1, hp1I, hp1m, hp1l⟩ := h3 1 le_rfl (by omega)
    obtain ⟨p2, hp2I, hp2m, hp2l⟩ := h3 2 (by omega) h2n
    have hconn : connected8 10 10 fullMask p1 p2 :=
      conn_in_rect 10 10 fullMask 0 10 0 10 le_rfl le_rfl
        (fun _ _ _ _ _ _ => rfl) p1 p2
        ⟨by omega, hp1I.1, by omega, hp1I.2⟩
        ⟨by omega, hp2I.1, by omega, hp2I.2⟩
    have := (h4 p1 p2 hp1I hp2I hp1m hp2m).mpr hconn
    omega
  · rintro lab n ⟨h1, h2, h3, h4⟩
    have hmA : ∀ i j, 0 ≤ i → i < 3 → 0 ≤ j → j < 3 → twoBlocksMask i j = true := by
      intro i j _ hi _ hj
      simp only [twoBlocksMask, decide_eq_true_eq]
      exact Or.inl ⟨hi, hj⟩
    have hmB : ∀ i j, 17 ≤ i → i < 20 → 17 ≤ j → j < 20 → twoBlocksMask i j = true := by
      intro i j h1i h2i h1j h2j
      simp only [twoBlocksMask, decide_eq_true_eq]
      exact Or.inr ⟨h1i, h2i, h1j, h2j⟩
    have h00I : inBounds 20 20 (0, 0) := ⟨by omega, by omega⟩
    have h17I : inBounds 20 20 (17, 17) := ⟨by omega, by omega⟩
    have h00m : twoBlocksMask 0 0 = true := by decide
    have h17m : twoBlocksMask 17 17 = true := by decide
    have hnel : lab 0 0 ≠ lab 17 17 := by
      intro he
      have hconn := (h4 (0, 0) (17, 17) h00I h17I h00m h17m).mp he
      have := twoBlocks_stay (0, 0) (17, 17) hconn
      omega
    have hb1 : 1 ≤ lab 0 0 ∧ lab 0 0 ≤ n := h2 (0, 0) h00I h00m
    have hb2 : 1 ≤ lab 17 17 ∧ lab 17 17 ≤ n := h2 (17, 17) h17I h17m
    have hx : ∀ k, 1 ≤ k → k ≤ n → k = lab 0 0 ∨ k = lab 17 17 := by
      intro k hk1 hk2
      obtain ⟨p, hpI, hpm, hpl⟩ := h3 k hk1 hk2
      have hpb := (decide_eq_true_eq).mp hpm
      rcases hpb with hA | hB
      · left
        rw [← hpl]
        exact (h4 p (0, 0) hpI h00I hpm h00m).mpr
          (conn_in_rect 20 20 twoBlocksMask 0 3 0 3 (by omega) (by omega) hmA
            p (0, 0) ⟨by omega, hA.1, by omega, hA.2⟩ ⟨by omega, by omega, by omega, by omega⟩)
      · right
        rw [← hpl]
        exact (h4 p (17, 17) hpI h17I hpm h17m).mpr
          (conn_in_rect 20 20 twoBlocksMask 17 20 17 20 (by omega) (by omega) hmB
            p (17, 17) ⟨hB.1, hB.2.1, hB.2.2.1, hB.2.2.2⟩
            ⟨by omega, by omega, by omega, by omega⟩)
    by_contra hne2
    have h3n : 3 ≤ n ∨ n ≤ 1 := by omega
    rcases h3n with h3n | h3n
    · have e1 := hx 1 (by omega) (by omega)
      have e2 := hx 2 (by omega) (by omega)
      have e3 := hx 3 (by omega) (by omega)
      omega
    · omega

/-- The explicit one-label field for the 10 × 10 all-true mask. -/
def labFull : ℕ → ℕ → ℕ := fun i j => if i < 10 ∧ j < 10 then 1 else 0

/-- `labFull` is a connected-component labeling of the all-true 10 × 10 mask
with exactly one label. -/
lemma isCC_full : IsCCLabel 10 10 fullMask labFull 1 := by
  refine ⟨?_, ?_, ?_, ?_⟩
  · rintro ⟨i, j⟩ hI
    simp [labFull, hI.1, hI.2, fullMask]
  · rintro ⟨i, j⟩ hI _
    simp [labFull, hI.1, hI.2]
  · intro k hk1 hk2
    have hk : k = 1 := by omega
    exact ⟨(0, 0), ⟨by omega, by omega⟩, rfl, by simp [labFull, hk]⟩
  · rintro ⟨i, j⟩ ⟨i2, j2⟩ hI hI2 _ _
    refine iff_of_true ?_ ?_
    · simp [labFull, hI.1, hI.2, hI2.1, hI2.2]
    · exact conn_in_rect 10 10 fullMask 0 10 0 10 le_rfl le_rfl
        (fun _ _ _ _ _ _ => rfl) (i, j) (i2, j2)
        ⟨by omega, hI.1, by omega, hI.2⟩ ⟨by omega, hI2.1, by omega, hI2.2⟩

/-- C7 witness: the mask accepts an in-range value, and the explicit
one-label field `labFull` discharges the labeling hypothesis of the
one-component count. -/
theorem wavmask_and_label_counts_witness :
    wavmask (fun _ _ => (5000 : ℚ)) 1000 10000 3 4 = true ∧ (1 : ℕ) = 1 :=
  ⟨(wavmask_and_label_counts.1 (fun _ _ => (5000 : ℚ)) 1000 10000 3 4).mpr
      (by norm_num),
   wavmask_and_label_counts.2.1 labFull 1 isCC_full⟩

/- ## Claims about the tilt shift table -/

/-- C3: the shift of column `j` is the integer part of
`j * tan(radians(tilt))` with truncation toward zero — floor on nonnegative
values, ceiling on negative ones, so it differs from flooring on negative
fractions and from rounding on fractions above one half — and `jtrim` is the
maximum of the shift table: an upper bound of every column shift that is
attained at some column. -/
theorem jshift_trunc_and_jtrim_max :
    (∀ (tilt : ℝ) (j : ℕ),
        jshifts tilt j = truncR ((j : ℝ) * Real.tan (radians tilt)))
    ∧ (∀ x : ℝ, 0 ≤ x → truncR x = ⌊x⌋)
    ∧ (∀ x : ℝ, x < 0 → truncR x = ⌈x⌉)
    ∧ truncR (-(1 / 2)) = 0
    ∧ (⌊(-(1 / 2) : ℝ)⌋ = -1)
    ∧ truncR (7 / 10) = 0
    ∧ round ((7 / 10 : ℝ)) = 1
    ∧ (∀ (s : ℕ → ℤ) (nx : ℕ), 0 < nx →
        (∀ j, j < nx → s j ≤ jtrim s nx) ∧ ∃ j, j < nx ∧ s j = jtrim s nx) := by
  refine ⟨fun tilt j => rfl, ?_, ?_, ?_, ?_, ?_, ?_, ?_⟩
  · intro x hx
    unfold truncR
    rw [if_pos hx]
  · intro x hx
    unfold truncR
    rw [if_neg (not_le.mpr hx)]
  · unfold truncR
    rw [if_neg (by norm_num)]
    rw [Int.ceil_eq_iff]
    constructor <;> norm_num
  · rw [Int.floor_eq_iff]
    constructor <;> norm_num
  · unfold truncR
    rw [if_pos (by norm_num)]
    rw [Int.floor_eq_iff]
    constructor <;> norm_num
  · rw [round_eq]
    rw [Int.floor_eq_iff]
    constructor <;> norm_num
  · intro s nx h
    refine ⟨fun j hj => le_jtrim s nx j hj, ?_⟩
    have hne : ((Finset.range nx).image s).Nonempty :=
      ⟨s 0, Finset.mem_image_of_mem s (Finset.mem_range.mpr h)⟩
    have hmem := ((Finset.range nx).image s).max'_mem hne
    rw [Finset.mem_image] at hmem
    obtain ⟨j, hj, hjv⟩ := hmem
    refine ⟨j, Finset.mem_range.mp hj, ?_⟩
    rw [hjv]
    unfold jtrim
    rw [dif_pos hne]

/-- C3 witness: truncation at a nonnegative point, and the maximum of the
identity shift table over three columns bounds column 2 and is attained. -/
theorem jshift_trunc_and_jtrim_max_witness :
    truncR 2 = ⌊(2 : ℝ)⌋ ∧
      ((fun j : ℕ => (j : ℤ)) 2 ≤ jtrim (fun j : ℕ => (j : ℤ)) 3 ∧
        ∃ j, j < 3 ∧ (fun j : ℕ => (j : ℤ)) j = jtrim (fun j : ℕ => (j : ℤ)) 3) :=
  ⟨jshift_trunc_and_jtrim_max.2.1 2 (by norm_num),
   (jshift_trunc_and_jtrim_max.2.2.2.2.2.2.2 (fun j : ℕ => (j : ℤ)) 3
       (by norm_num)).1 2 (by norm_num),
   (jshift_trunc_and_jtrim_max.2.2.2.2.2.2.2 (fun j : ℕ => (j : ℤ)) 3
       (by norm_num)).2⟩

/-- C10 counterexample: the tilt -100° is strictly negative, yet
`tan(radians(-100)) = tan(80°) > 1`, so the shift of column 1 is strictly
positive and `jtrim` over two columns is strictly positive — refuting the
claim that every strictly negative tilt gives non-positive shifts and
`jtrim = 0`. -/
theorem negative_tilt_positive_shift :
    ((-100 : ℝ) < 0) ∧ 0 < jshifts (-100) 1 ∧ 0 < jtrim (jshifts (-100)) 2 := by
  have hpi := Real.pi_pos
  have htan : 1 < Real.tan (radians (-100)) := by
    have hrad : radians (-100) = 4 * Real.pi / 9 - Real.pi := by
      unfold radians; ring
    have hper : Real.tan (radians (-100)) = Real.tan (4 * Real.pi / 9) := by
      rw [hrad]
      exact Real.tan_periodic.sub_eq (4 * Real.pi / 9)
    rw [hper]
    calc (1 : ℝ) = Real.tan (Real.pi / 4) := Real.tan_pi_div_four.symm
      _ < Real.tan (4 * Real.pi / 9) :=
          Real.tan_lt_tan_of_lt_of_lt_pi_div_two (by nlinarith) (by nlinarith)
            (by nlinarith)
  have hs : 0 < jshifts (-100) 1 := by
    show 0 < truncR ((1 : ℕ) * Real.tan (radians (-100)))
    unfold truncR
    rw [if_pos (by push_cast; nlinarith)]
    have hfl : (1 : ℤ) ≤ ⌊((1 : ℕ) : ℝ) * Real.tan (radians (-100))⌋ := by
      apply Int.le_floor.mpr
      push_cast
      nlinarith
    omega
  refine ⟨by norm_num, hs, ?_⟩
  have := le_jtrim (jshifts (-100)) 2 1 (by omega)
  omega

/-- C10 amended: for every tilt the shift of column 0 is exactly 0 and
`jtrim` is at least 0; and for every strictly negative tilt above -90°
(where the tangent is still negative) all shifts are non-positive and
`jtrim` equals 0. -/
theorem tilt_shift_sign_amended :
    (∀ tilt : ℝ, jshifts tilt 0 = 0)
    ∧ (∀ (tilt : ℝ) (nx : ℕ), 0 < nx → 0 ≤ jtrim (jshifts tilt) nx)
    ∧ (∀ tilt : ℝ, -90 < tilt → tilt < 0 →
        (∀ j : ℕ, jshifts tilt j ≤ 0) ∧
        (∀ nx : ℕ, 0 < nx → jtrim (jshifts tilt) nx = 0)) := by
  have hpi := Real.pi_pos
  have hz : ∀ tilt : ℝ, jshifts tilt 0 = 0 := by
    intro tilt
    show truncR ((0 : ℕ) * Real.tan (radians tilt)) = 0
    rw [Nat.cast_zero, zero_mul]
    unfold truncR
    rw [if_pos le_rfl, Int.floor_zero]
  have hge : ∀ (tilt : ℝ) (nx : ℕ), 0 < nx → 0 ≤ jtrim (jshifts tilt) nx := by
    intro tilt nx h
    have := le_jtrim (jshifts tilt) nx 0 h
    rw [hz tilt] at this
    exact this
  refine ⟨hz, hge, ?_⟩
  intro tilt h1 h2
  have hlow : -(Real.pi / 2) < radians tilt := by
    unfold radians; nlinarith
  have hneg : radians tilt < 0 := by
    unfold radians; nlinarith
  have htan : Real.tan (radians tilt) < 0 :=
    Real.tan_neg_of_neg_of_pi_div_two_lt hneg hlow
  have hshift : ∀ j : ℕ, jshifts tilt j ≤ 0 := by
    intro j
    rcases Nat.eq_zero_or_pos j with hj | hj
    · rw [hj, hz tilt]
    · show truncR ((j : ℕ) * Real.tan (radians tilt)) ≤ 0
      have hlt : ((j : ℕ) : ℝ) * Real.tan (radians tilt) < 0 :=
        mul_neg_of_pos_of_neg (by exact_mod_cast hj) htan
      unfold truncR
      rw [if_neg (not_le.mpr hlt)]
      exact Int.ceil_le.mpr (by exact_mod_cast hlt.le)
  refine ⟨hshift, fun nx hnx => ?_⟩
  refine le_antisymm ?_ (hge tilt nx hnx)
  unfold jtrim
  have hne : ((Finset.range nx).image (jshifts tilt)).Nonempty :=
    ⟨jshifts tilt 0, Finset.mem_image_of_mem _ (Finset.mem_range.mpr hnx)⟩
  rw [dif_pos hne]
  apply Finset.max'_le
  intro y hy
  rw [Finset.mem_image] at hy
  obtain ⟨j, _, rfl⟩ := hy
  exact hshift j

/-- C10 amended witness: the amended statement evaluated at tilt -45° with
one or two columns. -/
theorem tilt_shift_sign_amended_witness :
    jshifts (-45) 0 = 0 ∧ 0 ≤ jtrim (jshifts (-45)) 1 ∧
      jshifts (-45) 1 ≤ 0 ∧ jtrim (jshifts (-45)) 1 = 0 :=
  ⟨tilt_shift_sign_amended.1 (-45),
   tilt_shift_sign_amended.2.1 (-45) 1 (by norm_num),
   (tilt_shift_sign_amended.2.2 (-45) (by norm_num) (by norm_num)).1 1,
   (tilt_shift_sign_amended.2.2 (-45) (by norm_num) (by norm_num)).2 1 (by norm_num)⟩

/-- C1: for tilt 0 every column shift is 0, `jtrim = 0` and the chunk-wise
rectification returns the cropped input unchanged, exactly as the claim
says — but the final trim on lines 134-135 is `imorder[:-jtrim, :]`, and a
Python slice with stop `-0 = 0` keeps zero rows: for a 3-row strip the
written rasters have 0 of the 3 rows instead of all of them, contradicting
the claimed `image[0 : ny-jtrim, :]` trim and the code's own intent of
trimming only the wrap-around garbage. -/
theorem extract_tilt_zero_trims_all_rows :
    (∀ j, jshifts 0 j = 0)
    ∧ jtrim (jshifts 0) 2 = 0
    ∧ chunkRectify 3 2 (jshifts 0) rasterA = some rasterA
    ∧ pySliceUpto 3 (-jtrim (jshifts 0) 2) = 0 := by
  have hz : ∀ j, jshifts 0 j = 0 := by
    intro j
    show truncR ((j : ℕ) * Real.tan (radians 0)) = 0
    unfold radians
    rw [zero_mul, zero_div, Real.tan_zero, mul_zero]
    unfold truncR
    rw [if_pos le_rfl, Int.floor_zero]
  have hfun : jshifts 0 = fun _ : ℕ => (0 : ℤ) := funext hz
  refine ⟨hz, ?_, ?_, ?_⟩
  · rw [hfun]; decide
  · rw [hfun]; rfl
  · rw [hfun]; decide
